import Mathlib

/-!
Shallow embedding of the VSDX extraction engine (`src/vsdx_extractor.py`)
and verification of its specification claims.

The Python module opens a `.vsdx` file (a ZIP archive of XML parts), parses
selected parts with `xml.etree.ElementTree`, rewrites them under an output
directory, and accumulates page metadata on a `VSDXExtractor` instance.
We model XML trees, the string operations the code uses, the extractor's
mutable instance state as explicit state passing, and the directory-creation
side effects as an explicit file-system record.
-/

/-! ## Python string operations

The code uses `'PageSheet' in elem.tag` (substring test), `f.endswith('.xml')`,
`tag.split('}')[-1]` and `page_filename.replace('.xml', '')`.  We model each
on character lists by structural recursion so that concrete instances reduce
by `decide`. -/

/-- `isPrefixChars p s` : `p` is a prefix of `s` (character lists). -/
def isPrefixChars : List Char → List Char → Bool
  | [], _ => true
  | _ :: _, [] => false
  | p :: ps, c :: cs => p == c && isPrefixChars ps cs

/-- `containsChars pat s` : `pat` occurs as a contiguous substring of `s`. -/
def containsChars (pat : List Char) : List Char → Bool
  | [] => pat.isEmpty
  | c :: cs => isPrefixChars pat (c :: cs) || containsChars pat cs

/-- Python `pat in s` for strings. -/
def strContains (s pat : String) : Bool := containsChars pat.data s.data

/-- Python `s.endswith(pat)`. -/
def strEndsWith (s pat : String) : Bool := isPrefixChars pat.data.reverse s.data.reverse

/-- Left-to-right scan removing each non-overlapping occurrence of `pat`;
`fuel` bounds the recursion (one character is consumed per step, so
`s.length` fuel is enough). -/
def removeAllAux (pat : List Char) : Nat → List Char → List Char
  | 0, cs => cs
  | _ + 1, [] => []
  | fuel + 1, c :: cs =>
    if pat.isEmpty = false && isPrefixChars pat (c :: cs) then
      removeAllAux pat fuel (List.drop (pat.length - 1) cs)
    else c :: removeAllAux pat fuel cs

/-- Python `s.replace(pat, '')`: removes every non-overlapping occurrence of
`pat` from `s`, scanning left to right. -/
def pyRemoveAll (s pat : String) : String := ⟨removeAllAux pat.data s.data.length s.data⟩

/-- The `\x7d` character used by ElementTree's Clark notation `\x7buri\x7dlocal`. -/
def rbraceChar : Char := Char.ofNat 125

/-- Suffix of `cs` after the last occurrence of `b`; `cs` itself when `b`
does not occur (the behaviour of Python `s.split(b)[-1]`). -/
def afterLast (b : Char) : List Char → List Char
  | [] => []
  | c :: cs =>
    if containsChars [b] cs then afterLast b cs
    else if c == b then cs
    else c :: cs

/-- Line 122: `child.tag.split('}')[-1] if '}' in child.tag else child.tag` —
the local part of a Clark-notation tag. -/
def localName (tag : String) : String :=
  if containsChars [rbraceChar] tag.data then ⟨afterLast rbraceChar tag.data⟩ else tag

/-- Model of `os.path.join` for the relative paths the extractor builds. -/
def pjoin (a b : String) : String := a ++ "/" ++ b

/-! ## XML model

An `xml.etree.ElementTree` element: qualified tag (Clark notation when the
document is namespaced), attribute list in document order, optional text,
and child elements in document order. -/

/-- One XML attribute. -/
structure XAttr where
  key : String
  val : String
deriving DecidableEq, Repr

/-- An XML element as parsed by `ElementTree`. -/
inductive XElem where
  | mk (tag : String) (attrs : List XAttr) (text : Option String) (children : List XElem)
deriving Repr

/-- Qualified tag of an element. -/
def XElem.tag : XElem → String
  | .mk t _ _ _ => t

/-- Attribute list of an element. -/
def XElem.attrs : XElem → List XAttr
  | .mk _ a _ _ => a

/-- Text content of an element (`None` modelled as `none`). -/
def XElem.text : XElem → Option String
  | .mk _ _ x _ => x

/-- Child elements. -/
def XElem.children : XElem → List XElem
  | .mk _ _ _ cs => cs

/-- Python `elem.get(k)`: first attribute with key `k`, if any. -/
def attrGet (e : XElem) (k : String) : Option String :=
  (e.attrs.find? (fun a => a.key == k)).map XAttr.val

mutual
/-- All strict descendants of an element in document order: the result of
`root.findall('.//*')` (line 176). -/
def descElems : XElem → List XElem
  | .mk _ _ _ cs => descList cs

/-- Concatenated preorder traversals of a list of elements. -/
def descList : List XElem → List XElem
  | [] => []
  | c :: cs => c :: (descElems c ++ descList cs)
end

/-- Python `root.iter()`: the element itself followed by its descendants in
document order (line 181). -/
def iterAll (e : XElem) : List XElem := e :: descElems e

mutual
/-- Total number of elements in a subtree, root included — the spec-side
recursive node count used to characterise `elements_count`. -/
def totalElems : XElem → Nat
  | .mk _ _ _ cs => 1 + totalList cs

/-- Total number of elements in a forest. -/
def totalList : List XElem → Nat
  | [] => 0
  | c :: cs => totalElems c + totalList cs
end

/-! ## Page processing (`_process_single_page`, lines 162–197) -/

/-- The record appended to `pages_info` for each successfully parsed page
(the spec's `PageSummary`). -/
structure PageInfo where
  filename : String
  output_path : String
  elements_count : Nat
  root_tag : String
  name : String
deriving DecidableEq, Repr

/-- Lines 184–185: `cell.get('N') == 'PageName'`. -/
def isPageNameCell (c : XElem) : Bool := attrGet c "N" == some "PageName"

/-- Line 184: `elem.findall('.//Cell')` — strict descendants whose tag is
exactly `Cell` (ElementTree path matching is on the literal qualified tag),
in document order. -/
def findallCell (e : XElem) : List XElem :=
  (descElems e).filter (fun c => c.tag == "Cell")

/-- Lines 181–182: the first element of `root.iter()` (document order,
root included) whose tag contains the substring `PageSheet`; the outer
`break` stops the scan at this element. -/
def findPageSheet (root : XElem) : Option XElem :=
  (iterAll root).find? (fun e => strContains e.tag "PageSheet")

/-- Lines 181–191: resolve the page name.  Inside the first page-sheet
element, the first `Cell` with `N='PageName'` wins and contributes its `V`
attribute (default `'Unnamed'` when `V` is absent); otherwise the name
falls back to `page_filename.replace('.xml', '')`. -/
def resolveName (root : XElem) (pageFilename : String) : String :=
  match findPageSheet root with
  | some ps =>
    match (findallCell ps).find? isPageNameCell with
    | some cell => (attrGet cell "V").getD "Unnamed"
    | none => pyRemoveAll pageFilename ".xml"
  | none => pyRemoveAll pageFilename ".xml"

/-- Lines 173–191: the `page_info` dictionary built for one parsed page. -/
def mkPageInfo (outputDir pageFilename : String) (root : XElem) : PageInfo :=
  { filename := pageFilename
    output_path := pjoin outputDir pageFilename
    elements_count := (descElems root).length
    root_tag := root.tag
    name := resolveName root pageFilename }

/-! ## Extractor state and the remaining part extractors -/

/-- `extracted_data['document_info']` (lines 141–144). -/
structure DocInfo where
  root_tag : String
  namespaces : List XAttr
deriving DecidableEq, Repr

/-- The `extracted_data` dictionary: its only possible keys are
`app_properties` and `document_info`. -/
structure ExtractedData where
  app_properties : Option (List XAttr)
  document_info : Option DocInfo
deriving DecidableEq, Repr

/-- Mutable state of a `VSDXExtractor` instance (lines 26–29); `temp_dir`
is scratch space deleted before every return and carries no information
between calls, so it is not modelled. -/
structure ExtractorState where
  extracted_data : ExtractedData
  pages_info : List PageInfo
deriving DecidableEq, Repr

/-- State set up by `__init__` (lines 26–29). -/
def initState : ExtractorState := ⟨⟨none, none⟩, []⟩

/-- Python dict assignment `m[k] = v`: overwrite in place if the key exists,
else append (insertion order preserved). -/
def dictInsert (m : List XAttr) (k v : String) : List XAttr :=
  if m.any (fun p => p.key == k) then
    m.map (fun p => if p.key == k then ⟨k, v⟩ else p)
  else m ++ [⟨k, v⟩]

/-- Lines 119–123: walk the immediate children of the app-properties root
and record `local_tag -> text` for every child with truthy text. -/
def appProps (root : XElem) : List XAttr :=
  root.children.foldl
    (fun m c =>
      match c.text with
      | some t => if t == "" then m else dictInsert m (localName c.tag) t
      | none => m)
    []

/-- `_process_app_xml` (lines 108–128): `parsed = none` models the parse
raising, which is caught and leaves the state unchanged. -/
def process_app_xml (st : ExtractorState) (parsed : Option XElem) : ExtractorState :=
  match parsed with
  | none => st
  | some root =>
    { st with extracted_data := { st.extracted_data with app_properties := some (appProps root) } }

/-- `_process_document_xml` (lines 130–149). -/
def process_document_xml (st : ExtractorState) (parsed : Option XElem) : ExtractorState :=
  match parsed with
  | none => st
  | some root =>
    { st with extracted_data :=
        { st.extracted_data with document_info := some ⟨root.tag, root.attrs⟩ } }

/-- `_process_single_page` (lines 162–197): a parse failure is caught and
logged, leaving the state unchanged; a successful parse appends one
`PageInfo`. -/
def process_single_page (st : ExtractorState) (outputDir pageFilename : String)
    (parsed : Option XElem) : ExtractorState :=
  match parsed with
  | none => st
  | some root => { st with pages_info := st.pages_info ++ [mkPageInfo outputDir pageFilename root] }

/-- `_process_pages` (lines 151–160): keep the `.xml`-suffixed entries of the
pages directory (in listing order) and process each into
`output_dir/pages`. -/
def process_pages (st : ExtractorState) (entries : List (String × Option XElem))
    (outputDir : String) : ExtractorState :=
  (entries.filter (fun e => strEndsWith e.1 ".xml")).foldl
    (fun s e => process_single_page s (pjoin outputDir "pages") e.1 e.2) st

/-! ## The archive and `extract_vsdx` -/

/-- Contents of a successfully opened archive, as seen by
`_process_extracted_files`: each optional part is `none` when the entry or
directory is absent; an entry's value is the result of `ET.parse` on its
bytes (`none` = malformed XML). -/
structure Archive where
  app_xml : Option (Option XElem)
  document_xml : Option (Option XElem)
  pages_dir : Option (List (String × Option XElem))
  masters_dir : Option (List (String × Option XElem))

/-- `_process_extracted_files` (lines 81–106).  Master processing
(lines 199–218) only rewrites files and never touches the instance state. -/
def process_extracted_files (st : ExtractorState) (ar : Archive) (outputDir : String) :
    ExtractorState :=
  let st1 := match ar.app_xml with
    | some parsed => process_app_xml st parsed
    | none => st
  let st2 := match ar.document_xml with
    | some parsed => process_document_xml st1 parsed
    | none => st1
  match ar.pages_dir with
  | some entries => process_pages st2 entries outputDir
  | none => st2

/-- The classification of the path handed to `extract_vsdx`:
the path does not exist, it exists but its bytes are not a ZIP archive,
or it opens as a valid ZIP with the given contents. -/
inductive VsdxInput where
  | missingPath
  | notAZip
  | validZip (ar : Archive)

/-- The dictionary returned by `extract_vsdx`: on success it has keys
`success`, `output_dir`, `pages`, `extracted_data`; on the failure path only
`success` and `error` (absent keys are `none`). -/
structure ResultDict where
  success : Bool
  output_dir : Option String
  pages : Option (List PageInfo)
  extracted_data : Option ExtractedData
  error : Option String
deriving DecidableEq, Repr

/-- Directories created on disk during an extraction call. -/
structure FileSystem where
  createdDirs : List String
deriving DecidableEq, Repr

/-- An empty file system. -/
def initFS : FileSystem := ⟨[]⟩

/-- Output subdirectories created by `_process_pages` (line 154) and
`_process_masters` (line 202) when the corresponding archive directory
exists. -/
def archiveDirs (ar : Archive) (outputDir : String) : List String :=
  (match ar.pages_dir with
   | some _ => [pjoin outputDir "pages"]
   | none => []) ++
  (match ar.masters_dir with
   | some _ => [pjoin outputDir "masters"]
   | none => [])

/-- The message of the `zipfile.BadZipFile` raised on a non-ZIP byte
stream, as stringified into the failure dictionary (lines 70–75). -/
def badZipMsg : String := "File is not a zip file"

/-- `extract_vsdx` (lines 31–79).  A `missingPath` input hits the
`raise FileNotFoundError` on line 43, which is outside the `try` block and
escapes the call: modelled as `Except.error`.  Otherwise the output
directory is created (line 49) before the ZIP is opened (line 56); a
`BadZipFile` from the open is caught and converted to a `success=False`
dictionary (lines 70–75) that carries no `pages` key. -/
def extract_vsdx (st : ExtractorState) (fs : FileSystem) (input : VsdxInput)
    (vsdxPath : String) (outputDirArg : Option String) :
    Except String (ResultDict × ExtractorState × FileSystem) :=
  match input with
  | .missingPath => Except.error ("VSDX file not found: " ++ vsdxPath)
  | .notAZip =>
    let outputDir := outputDirArg.getD (vsdxPath ++ "_extracted")
    let fs1 : FileSystem := ⟨fs.createdDirs ++ [outputDir]⟩
    Except.ok (⟨false, none, none, none, some badZipMsg⟩, st, fs1)
  | .validZip ar =>
    let outputDir := outputDirArg.getD (vsdxPath ++ "_extracted")
    let fs1 : FileSystem := ⟨fs.createdDirs ++ [outputDir]⟩
    let st1 := process_extracted_files st ar outputDir
    let fs2 : FileSystem := ⟨fs1.createdDirs ++ archiveDirs ar outputDir⟩
    Except.ok (⟨true, some outputDir, some st1.pages_info, some st1.extracted_data, none⟩, st1, fs2)

/-- `get_extraction_summary` (lines 220–228). -/
structure Summary where
  total_pages : Nat
  pages : List PageInfo
  has_app_properties : Bool
  has_document_info : Bool
deriving DecidableEq, Repr

/-- `get_extraction_summary` reads the instance state accumulated so far. -/
def get_extraction_summary (st : ExtractorState) : Summary :=
  ⟨st.pages_info.length, st.pages_info,
   st.extracted_data.app_properties.isSome,
   st.extracted_data.document_info.isSome⟩

/-! ## Derived descriptions used by several theorems -/

/-- The page records an extraction derives from a pages-directory listing:
one per `.xml` entry whose contents parse, in listing order. -/
def archivePages (entries : List (String × Option XElem)) (outputDir : String) : List PageInfo :=
  (entries.filter (fun e => strEndsWith e.1 ".xml")).filterMap
    (fun e => e.2.map (mkPageInfo (pjoin outputDir "pages") e.1))

/-- The pages contributed by a whole archive. -/
def pagesOf (ar : Archive) (outputDir : String) : List PageInfo :=
  archivePages (ar.pages_dir.getD []) outputDir

theorem foldl_psp_pages (l : List (String × Option XElem)) (st : ExtractorState) (d : String) :
    (l.foldl (fun s e => process_single_page s d e.1 e.2) st).pages_info =
      st.pages_info ++ l.filterMap (fun e => e.2.map (mkPageInfo d e.1)) := by
  induction l generalizing st with
  | nil => simp
  | cons e rest ih =>
    rw [List.foldl_cons, ih]
    obtain ⟨fn, parsed⟩ := e
    cases parsed with
    | none => simp [process_single_page]
    | some root => simp [process_single_page]

theorem foldl_psp_data (l : List (String × Option XElem)) (st : ExtractorState) (d : String) :
    (l.foldl (fun s e => process_single_page s d e.1 e.2) st).extracted_data =
      st.extracted_data := by
  induction l generalizing st with
  | nil => rfl
  | cons e rest ih =>
    rw [List.foldl_cons, ih]
    obtain ⟨fn, parsed⟩ := e
    cases parsed with
    | none => rfl
    | some root => rfl

theorem process_pages_pages_info (st : ExtractorState) (entries : List (String × Option XElem))
    (outputDir : String) :
    (process_pages st entries outputDir).pages_info =
      st.pages_info ++ archivePages entries outputDir := by
  simp [process_pages, archivePages, foldl_psp_pages]

theorem process_app_xml_pages (st : ExtractorState) (parsed : Option XElem) :
    (process_app_xml st parsed).pages_info = st.pages_info := by
  cases parsed <;> rfl

theorem process_document_xml_pages (st : ExtractorState) (parsed : Option XElem) :
    (process_document_xml st parsed).pages_info = st.pages_info := by
  cases parsed <;> rfl

theorem process_extracted_files_pages (st : ExtractorState) (ar : Archive) (d : String) :
    (process_extracted_files st ar d).pages_info = st.pages_info ++ pagesOf ar d := by
  unfold process_extracted_files
  cases har : ar.app_xml <;> cases hdr : ar.document_xml <;> cases hpr : ar.pages_dir <;>
    simp [process_pages_pages_info, process_app_xml_pages, process_document_xml_pages,
      pagesOf, har, hdr, hpr, archivePages]

mutual
theorem descElems_length_eq (e : XElem) : (descElems e).length + 1 = totalElems e := by
  cases e with
  | mk t a x cs =>
    rw [descElems, totalElems, descList_length_eq cs]
    omega

theorem descList_length_eq (cs : List XElem) : (descList cs).length = totalList cs := by
  cases cs with
  | nil => rfl
  | cons c rest =>
    rw [descList, totalList, ← descElems_length_eq c, ← descList_length_eq rest]
    simp
    omega
end

/-- C1 counterexample input: any path classified as nonexistent. -/
theorem extract_missing_raises :
    extract_vsdx initState initFS VsdxInput.missingPath "diagram.vsdx" none =
      Except.error "VSDX file not found: diagram.vsdx" := rfl

/-- C1 (counterexample): calling `extract_vsdx` on a path that does not exist
does not return a result object at all — the `raise FileNotFoundError` on
line 43 sits outside the `try` block and escapes the call, so the claim's
"never an unhandled exception, success = false" fails on this input. -/
theorem C1_counterexample :
    extract_vsdx initState initFS VsdxInput.missingPath "diagram.vsdx" none =
      Except.error "VSDX file not found: diagram.vsdx" ∧
    ∀ r : ResultDict × ExtractorState × FileSystem,
      extract_vsdx initState initFS VsdxInput.missingPath "diagram.vsdx" none ≠ Except.ok r := by
  constructor
  · rfl
  · intro r h
    exact absurd (extract_missing_raises ▸ h) (by simp)

/-- C1 (amended): on a nonexistent path `extract_vsdx` raises
`FileNotFoundError` (an unhandled exception carrying the message, not a
result object); on an existing path whose bytes are not a valid ZIP it
returns a result object with `success = false` and a populated error
message, but with no `pages` key at all rather than an empty page
sequence. -/
theorem C1_amended (st : ExtractorState) (fs : FileSystem) (p : String) (od : Option String) :
    extract_vsdx st fs VsdxInput.missingPath p od =
      Except.error ("VSDX file not found: " ++ p) ∧
    ∃ fs' : FileSystem,
      extract_vsdx st fs VsdxInput.notAZip p od =
        Except.ok (⟨false, none, none, none, some badZipMsg⟩, st, fs') ∧
      badZipMsg ≠ "" := by
  refine ⟨rfl, ⟨⟨fs.createdDirs ++ [od.getD (p ++ "_extracted")]⟩, rfl, by decide⟩⟩

/-- C10 (confirmed): whenever `extract_vsdx` is called on an existing path,
the output directory — defaulting to `<vsdx_path>_extracted` — is recorded
as created on disk even when the call returns `success = false` because
the bytes are not a valid ZIP archive: `os.makedirs` on line 49 runs before
`zipfile.ZipFile` on line 56, so failure is not atomic with respect to the
file system. -/
theorem C10_output_dir_created (st : ExtractorState) (fs : FileSystem) (p : String)
    (od : Option String) :
    (∃ r : ResultDict, ∃ st' : ExtractorState, ∃ fs' : FileSystem,
      extract_vsdx st fs VsdxInput.notAZip p od = Except.ok (r, st', fs') ∧
      r.success = false ∧ od.getD (p ++ "_extracted") ∈ fs'.createdDirs) ∧
    (∀ ar : Archive, ∃ r : ResultDict, ∃ st' : ExtractorState, ∃ fs' : FileSystem,
      extract_vsdx st fs (VsdxInput.validZip ar) p od = Except.ok (r, st', fs') ∧
      r.success = true ∧ od.getD (p ++ "_extracted") ∈ fs'.createdDirs) := by
  constructor
  · exact ⟨_, _, _, rfl, rfl, by simp [extract_vsdx]⟩
  · intro ar
    exact ⟨_, _, _, rfl, rfl, by simp [extract_vsdx]⟩

/-- A page root with exactly 3 direct child elements and no grandchildren. -/
def threeChildRoot : XElem :=
  .mk "PageContents" [] none
    [.mk "Shape" [] none [], .mk "Shape" [] none [], .mk "Shape" [] none []]

/-- C5 (confirmed): the `elements_count` recorded for a successfully parsed
page equals the number of descendant elements strictly below the page root
(the recursive node count of the subtree minus the root itself); for a root
with exactly 3 direct children and no grandchildren it is 3, and as a
natural number it is trivially ≥ 0. -/
theorem C5_element_count :
    (∀ outputDir fn : String, ∀ root : XElem,
      (mkPageInfo outputDir fn root).elements_count = totalElems root - 1 ∧
      0 ≤ (mkPageInfo outputDir fn root).elements_count) ∧
    (mkPageInfo "out" "page1.xml" threeChildRoot).elements_count = 3 := by
  refine ⟨fun outputDir fn root => ⟨?_, Nat.zero_le _⟩, by decide⟩
  show (descElems root).length = totalElems root - 1
  rw [← descElems_length_eq root]
  omega

theorem archivePages_length (entries : List (String × Option XElem)) (d : String) :
    (archivePages entries d).length =
      (entries.filter (fun e => strEndsWith e.1 ".xml" && e.2.isSome)).length := by
  induction entries with
  | nil => rfl
  | cons e rest ih =>
    obtain ⟨fn, parsed⟩ := e
    by_cases hx : strEndsWith fn ".xml" = true
    · cases parsed with
      | none => simpa [archivePages, hx] using ih
      | some root => simpa [archivePages, hx] using ih
    · simp only [Bool.not_eq_true] at hx
      simpa [archivePages, hx] using ih

/-- The three-page pages directory of the C2 scenario: `page2.xml` holds
invalid XML (its parse fails), the other two parse. -/
def trioEntries : List (String × Option XElem) :=
  [("page1.xml", some (.mk "PageContents" [] none [.mk "Shape" [] none []])),
   ("page2.xml", none),
   ("page3.xml", some (.mk "PageContents" [] none []))]

/-- An archive whose pages directory is `trioEntries`. -/
def trioArchive : Archive := ⟨none, none, some trioEntries, none⟩

/-- C2 (confirmed): for every archive that opens as a valid ZIP, the result
has `success = true` and its page list contains exactly one `PageInfo` per
`.xml` entry of the pages directory whose contents parse, in listing order;
entries that fail to parse are omitted without affecting the rest.  In
particular, with one malformed page among three, the result holds exactly 2
pages and `success = true`. -/
theorem C2_malformed_page_isolated :
    (∀ (ar : Archive) (fs : FileSystem) (p : String) (od : Option String),
      ∃ r : ResultDict, ∃ st' : ExtractorState, ∃ fs' : FileSystem,
        extract_vsdx initState fs (VsdxInput.validZip ar) p od = Except.ok (r, st', fs') ∧
        r.success = true ∧
        r.pages = some (pagesOf ar (od.getD (p ++ "_extracted"))) ∧
        (pagesOf ar (od.getD (p ++ "_extracted"))).length =
          ((ar.pages_dir.getD []).filter
            (fun e => strEndsWith e.1 ".xml" && e.2.isSome)).length) ∧
    (extract_vsdx initState initFS (VsdxInput.validZip trioArchive) "t.vsdx" none).toOption.map
        (fun x => (x.1.success, (x.1.pages.getD []).length)) = some (true, 2) := by
  constructor
  · intro ar fs p od
    refine ⟨_, _, _, rfl, rfl, ?_, archivePages_length _ _⟩
    show some (process_extracted_files initState ar (od.getD (p ++ "_extracted"))).pages_info = _
    rw [process_extracted_files_pages]
    simp [initState]
  · rfl

/-- C9 (confirmed): `extract_vsdx` never resets the instance state — a
second extraction on the same `VSDXExtractor` returns a pages sequence
holding the first call's entries followed by the second call's, and
`get_extraction_summary` counts the pages of both calls. -/
theorem C9_state_accumulates (ar1 ar2 : Archive) (fs1 fs2 : FileSystem)
    (p1 p2 : String) (od1 od2 : Option String)
    (r1 r2 : ResultDict) (st1 st2 : ExtractorState) (fsa fsb : FileSystem)
    (h1 : extract_vsdx initState fs1 (VsdxInput.validZip ar1) p1 od1 = Except.ok (r1, st1, fsa))
    (h2 : extract_vsdx st1 fs2 (VsdxInput.validZip ar2) p2 od2 = Except.ok (r2, st2, fsb)) :
    r1.pages = some (pagesOf ar1 (od1.getD (p1 ++ "_extracted"))) ∧
    r2.pages = some (pagesOf ar1 (od1.getD (p1 ++ "_extracted")) ++
                     pagesOf ar2 (od2.getD (p2 ++ "_extracted"))) ∧
    (get_extraction_summary st2).total_pages =
      (pagesOf ar1 (od1.getD (p1 ++ "_extracted"))).length +
      (pagesOf ar2 (od2.getD (p2 ++ "_extracted"))).length := by
  simp only [extract_vsdx, Except.ok.injEq, Prod.mk.injEq] at h1 h2
  obtain ⟨hr1, hst1, -⟩ := h1
  obtain ⟨hr2, hst2, -⟩ := h2
  subst hst1 hst2
  have e1 : (process_extracted_files initState ar1 (od1.getD (p1 ++ "_extracted"))).pages_info =
      pagesOf ar1 (od1.getD (p1 ++ "_extracted")) := by
    rw [process_extracted_files_pages]; simp [initState]
  have e2 : (process_extracted_files
      (process_extracted_files initState ar1 (od1.getD (p1 ++ "_extracted")))
      ar2 (od2.getD (p2 ++ "_extracted"))).pages_info =
      pagesOf ar1 (od1.getD (p1 ++ "_extracted")) ++
        pagesOf ar2 (od2.getD (p2 ++ "_extracted")) := by
    rw [process_extracted_files_pages, e1]
  refine ⟨?_, ?_, ?_⟩
  · rw [← hr1]
    simp [e1]
  · rw [← hr2]
    simp [e2]
  · simp [get_extraction_summary, e2]

/-- First archive of the C9 witness scenario: a single page `a.xml`. -/
def w9a : Archive := ⟨none, none, some [("a.xml", some (XElem.mk "PageA" [] none []))], none⟩

/-- Second archive of the C9 witness scenario: a single page `b.xml`. -/
def w9b : Archive := ⟨none, none, some [("b.xml", some (XElem.mk "PageB" [] none []))], none⟩

/-- Extractor state after the first witness call. -/
def w9st1 : ExtractorState := process_extracted_files initState w9a "v1_extracted"

/-- Extractor state after the second witness call. -/
def w9st2 : ExtractorState := process_extracted_files w9st1 w9b "v2_extracted"

/-- Result dictionary of the first witness call. -/
def w9r1 : ResultDict :=
  ⟨true, some "v1_extracted", some w9st1.pages_info, some w9st1.extracted_data, none⟩

/-- Result dictionary of the second witness call. -/
def w9r2 : ResultDict :=
  ⟨true, some "v2_extracted", some w9st2.pages_info, some w9st2.extracted_data, none⟩

/-- File system after the first witness call. -/
def w9fsa : FileSystem :=
  ⟨(initFS.createdDirs ++ ["v1_extracted"]) ++ archiveDirs w9a "v1_extracted"⟩

/-- File system after the second witness call. -/
def w9fsb : FileSystem :=
  ⟨(initFS.createdDirs ++ ["v2_extracted"]) ++ archiveDirs w9b "v2_extracted"⟩

/-- Witness for C9: on two concrete one-page archives the second call's
summary counts both pages. -/
theorem C9_witness :
    w9r2.pages = some (pagesOf w9a "v1_extracted" ++ pagesOf w9b "v2_extracted") ∧
    (get_extraction_summary w9st2).total_pages =
      (pagesOf w9a "v1_extracted").length + (pagesOf w9b "v2_extracted").length := by
  have h := C9_state_accumulates w9a w9b initFS initFS "v1.vsdx" "v2.vsdx"
    (some "v1_extracted") (some "v2_extracted") w9r1 w9r2 w9st1 w9st2 w9fsa w9fsb rfl rfl
  exact ⟨h.2.1, h.2.2⟩

/-- A page whose page-sheet carries a `PageName` cell with `V` explicitly
set to the empty string. -/
def emptyNamePage : XElem :=
  .mk "PageContents" [] none
    [.mk "PageSheet" [] none
      [.mk "Cell" [⟨"N", "PageName"⟩, ⟨"V", ""⟩] none []]]

/-- An archive holding only `emptyNamePage` as `page1.xml`. -/
def emptyNameArchive : Archive := ⟨none, none, some [("page1.xml", some emptyNamePage)], none⟩

/-- C3 (counterexample): a page part processed successfully can end up with
an empty `name`: `cell.get('V', 'Unnamed')` on line 186 returns the empty
string when the matched `PageName` cell carries `V=""`, so the produced
`PageSummary` (which the result does contain) has `name = ""`. -/
theorem C3_counterexample :
    (extract_vsdx initState initFS (VsdxInput.validZip emptyNameArchive)
        "e.vsdx" none).toOption.map
      (fun x => (x.1.pages.getD []).map PageInfo.name) = some [""] := by rfl

/-- C3 (amended): the `name` of a successfully processed page is non-empty
provided the selected `PageName` cell (if any) does not carry an explicitly
empty `V` attribute and the filename fallback (the filename with every
`.xml` occurrence removed) is itself non-empty — e.g. any filename other
than a concatenation of `.xml` blocks. -/
theorem C3_amended (root : XElem) (outputDir fn : String)
    (hV : ∀ ps cell : XElem, findPageSheet root = some ps →
      (findallCell ps).find? isPageNameCell = some cell → attrGet cell "V" ≠ some "")
    (hfn : pyRemoveAll fn ".xml" ≠ "") :
    (mkPageInfo outputDir fn root).name ≠ "" := by
  show resolveName root fn ≠ ""
  cases hps : findPageSheet root with
  | none => simpa [resolveName, hps] using hfn
  | some ps =>
    cases hcell : (findallCell ps).find? isPageNameCell with
    | none => simpa [resolveName, hps, hcell] using hfn
    | some cell =>
      cases hv : attrGet cell "V" with
      | none =>
        simp only [resolveName, hps, hcell, hv, Option.getD_none]
        decide
      | some v =>
        have hne := hV ps cell hps hcell
        rw [hv] at hne
        have hvne : v ≠ "" := fun h => hne (by rw [h])
        simpa [resolveName, hps, hcell, hv] using hvne

/-- A page with no page-sheet element at all, used by the C3 witness. -/
def plainShapePage : XElem := .mk "PageContents" [] none [.mk "Shape" [] none []]

/-- Witness for C3 (amended): a concrete page with no page-sheet and
filename `page1.xml` has the non-empty name `page1`. -/
theorem C3_witness :
    pyRemoveAll "page1.xml" ".xml" ≠ "" ∧
    (mkPageInfo "out" "page1.xml" plainShapePage).name ≠ "" := by
  refine ⟨by decide, C3_amended plainShapePage "out" "page1.xml" ?_ (by decide)⟩
  intro ps cell hps hcell
  have : findPageSheet plainShapePage = none := by rfl
  rw [this] at hps
  exact absurd hps (by simp)

theorem find_eq_filter_head {α : Type} (p : α → Bool) (l : List α) :
    l.find? p = (l.filter p).head? := by
  induction l with
  | nil => rfl
  | cons a l ih =>
    by_cases h : p a = true
    · rw [List.find?_cons_of_pos _ h, List.filter_cons_of_pos h, List.head?_cons]
    · have h2 : p a = false := by simpa using h
      rw [List.find?_cons_of_neg _ (by simp [h2]), List.filter_cons_of_neg (by simp [h2]), ih]

/-- C6 (confirmed): when the first element in document order whose tag
contains `PageSheet` holds at least one `Cell` with `N = 'PageName'`, the
resolved page name comes from the first such cell in document order — first
match wins — and any root producing the same first page-sheet element
resolves to the same name, so page-sheet elements later in document order
are never consulted. -/
theorem C6_first_match_wins (root : XElem) (fn : String) (ps cell : XElem)
    (hps : findPageSheet root = some ps)
    (hcell : ((findallCell ps).filter isPageNameCell).head? = some cell) :
    resolveName root fn = (attrGet cell "V").getD "Unnamed" ∧
    ∀ root2 : XElem, findPageSheet root2 = some ps →
      resolveName root2 fn = (attrGet cell "V").getD "Unnamed" := by
  have hfind : (findallCell ps).find? isPageNameCell = some cell := by
    rw [find_eq_filter_head]; exact hcell
  have key : ∀ r : XElem, findPageSheet r = some ps →
      resolveName r fn = (attrGet cell "V").getD "Unnamed" := by
    intro r hr
    unfold resolveName
    rw [hr]
    show (match (findallCell ps).find? isPageNameCell with
      | some c => (attrGet c "V").getD "Unnamed"
      | none => pyRemoveAll fn ".xml") = (attrGet cell "V").getD "Unnamed"
    rw [hfind]
  exact ⟨key root hps, fun root2 h2 => key root2 h2⟩

/-- A page whose first page-sheet holds two `PageName` cells (values
`First` and `Second`) and whose second page-sheet holds a third; the
resolved name must be `First`. -/
def twoCellPage : XElem :=
  .mk "PageContents" [] none
    [.mk "PageSheet" [] none
      [.mk "Cell" [⟨"N", "PageName"⟩, ⟨"V", "First"⟩] none [],
       .mk "Cell" [⟨"N", "PageName"⟩, ⟨"V", "Second"⟩] none []],
     .mk "PageSheet" [] none
      [.mk "Cell" [⟨"N", "PageName"⟩, ⟨"V", "Third"⟩] none []]]

/-- The first page-sheet of `twoCellPage`. -/
def twoCellSheet : XElem :=
  .mk "PageSheet" [] none
    [.mk "Cell" [⟨"N", "PageName"⟩, ⟨"V", "First"⟩] none [],
     .mk "Cell" [⟨"N", "PageName"⟩, ⟨"V", "Second"⟩] none []]

/-- The first matching cell of `twoCellSheet`. -/
def firstCell : XElem := .mk "Cell" [⟨"N", "PageName"⟩, ⟨"V", "First"⟩] none []

/-- Witness for C6: on the concrete two-sheet page the resolved name is the
first cell's `First`, not `Second` or `Third`. -/
theorem C6_witness :
    findPageSheet twoCellPage = some twoCellSheet ∧
    ((findallCell twoCellSheet).filter isPageNameCell).head? = some firstCell ∧
    resolveName twoCellPage "page4.xml" = "First" :=
  ⟨rfl, rfl,
    (C6_first_match_wins twoCellPage "page4.xml" twoCellSheet firstCell rfl rfl).1⟩

/-- C7 (counterexample): for a page with no page-sheet and the filename
`a.xml.xml`, the resolved name is `a` — `page_filename.replace('.xml', '')`
on line 191 removes every occurrence of `.xml`, not just the final
extension, which would have left `a.xml`. -/
theorem C7_counterexample :
    (extract_vsdx initState initFS
        (VsdxInput.validZip ⟨none, none,
          some [("a.xml.xml", some (XElem.mk "PageContents" [] none []))], none⟩)
        "c.vsdx" none).toOption.map
      (fun x => (x.1.pages.getD []).map PageInfo.name) = some ["a"] ∧
    ("a" : String) ≠ "a.xml" := by
  exact ⟨rfl, by decide⟩

/-- C7 (amended): when the searched page-sheet element holds no `PageName`
cell, or no page-sheet exists at all, the resolved name is the filename
with every occurrence of `.xml` removed (Python `replace`), which equals
plain extension-stripping for ordinary names such as `page1.xml` → `page1`
but not for names like `a.xml.xml`. -/
theorem C7_fallback_name (root : XElem) (outputDir fn : String)
    (h : ∀ ps : XElem, findPageSheet root = some ps →
      (findallCell ps).find? isPageNameCell = none) :
    (mkPageInfo outputDir fn root).name = pyRemoveAll fn ".xml" ∧
    pyRemoveAll "page1.xml" ".xml" = "page1" := by
  refine ⟨?_, by decide⟩
  show resolveName root fn = pyRemoveAll fn ".xml"
  cases hps : findPageSheet root with
  | none => simp [resolveName, hps]
  | some ps => simp [resolveName, hps, h ps hps]

/-- Witness for C7 (amended): a concrete page whose page-sheet holds no
`PageName` cell resolves `page7.xml` to `page7`. -/
theorem C7_witness :
    (mkPageInfo "out" "page7.xml" (XElem.mk "PageContents" [] none
        [XElem.mk "PageSheet" [] none []])).name = pyRemoveAll "page7.xml" ".xml" ∧
    pyRemoveAll "page1.xml" ".xml" = "page1" := by
  refine C7_fallback_name _ "out" "page7.xml" ?_
  intro ps hps
  have hv : findPageSheet (XElem.mk "PageContents" [] none
      [XElem.mk "PageSheet" [] none []]) = some (XElem.mk "PageSheet" [] none []) := rfl
  rw [hv] at hps
  cases hps
  rfl

/-- A page whose page-sheet and property cells all carry a namespace
(Clark notation, as ElementTree produces for a namespaced document). -/
def nsCellPage : XElem :=
  .mk "\x7buri\x7dPageContents" [] none
    [.mk "\x7buri\x7dPageSheet" [] none
      [.mk "\x7buri\x7dCell" [⟨"N", "PageName"⟩, ⟨"V", "Foo"⟩] none []]]

/-- The un-namespaced equivalent of `nsCellPage`. -/
def plainCellPage : XElem :=
  .mk "PageContents" [] none
    [.mk "PageSheet" [] none
      [.mk "Cell" [⟨"N", "PageName"⟩, ⟨"V", "Foo"⟩] none []]]

/-- C4 (counterexample): the `PageName` lookup is not namespace-insensitive.
`elem.findall('.//Cell')` on line 184 matches the literal qualified tag
`Cell`, so on the namespaced page the cell is never found and the name falls
back to the filename — `page1`, not the `Foo` the un-namespaced equivalent
resolves. -/
theorem C4_counterexample :
    (mkPageInfo "out" "page1.xml" plainCellPage).name = "Foo" ∧
    (mkPageInfo "out" "page1.xml" nsCellPage).name = "page1" ∧
    ("page1" : String) ≠ "Foo" := ⟨rfl, rfl, by decide⟩

theorem dictInsert_mem (m : List XAttr) (k v : String) (a : XAttr)
    (ha : a ∈ dictInsert m k v) : a ∈ m ∨ a.key = k := by
  unfold dictInsert at ha
  by_cases hk : m.any (fun p => p.key == k) = true
  · rw [if_pos hk] at ha
    obtain ⟨p, hp, he⟩ := List.mem_map.mp ha
    by_cases hpk : p.key = k
    · right
      rw [← he]
      simp [hpk]
    · left
      have : p = a := by simpa [hpk] using he
      rwa [← this]
  · rw [if_neg hk] at ha
    rcases List.mem_append.mp ha with h | h
    · exact Or.inl h
    · right
      have : a = ⟨k, v⟩ := by simpa using h
      rw [this]

theorem appProps_foldl_mem (l : List XElem) (m : List XAttr) (a : XAttr)
    (ha : a ∈ l.foldl
      (fun m c =>
        match c.text with
        | some t => if t == "" then m else dictInsert m (localName c.tag) t
        | none => m) m) :
    a ∈ m ∨ ∃ c, c ∈ l ∧ a.key = localName c.tag := by
  induction l generalizing m with
  | nil => exact Or.inl ha
  | cons c rest ih =>
    rw [List.foldl_cons] at ha
    rcases ih _ ha with h | ⟨c', hc', hk⟩
    · cases hx : c.text with
      | none =>
        rw [hx] at h
        exact Or.inl h
      | some t =>
        rw [hx] at h
        have h' : a ∈ if (t == "") = true then m else dictInsert m (localName c.tag) t := h
        by_cases ht : (t == "") = true
        · rw [if_pos ht] at h'
          exact Or.inl h'
        · rw [if_neg ht] at h'
          rcases dictInsert_mem _ _ _ _ h' with h2 | h2
          · exact Or.inl h2
          · exact Or.inr ⟨c, List.mem_cons_self c rest, h2⟩
    · exact Or.inr ⟨c', List.mem_cons_of_mem c hc', hk⟩

theorem isPrefixChars_self_append (p r : List Char) : isPrefixChars p (p ++ r) = true := by
  induction p with
  | nil => rfl
  | cons c cs ih => simp [isPrefixChars, ih]

theorem containsChars_self_append (pat r : List Char) :
    containsChars pat (pat ++ r) = true := by
  cases pat with
  | nil =>
    cases r with
    | nil => rfl
    | cons c cs => simp [containsChars, isPrefixChars]
  | cons p ps =>
    show (isPrefixChars (p :: ps) ((p :: ps) ++ r) || containsChars (p :: ps) (ps ++ r)) = true
    rw [isPrefixChars_self_append]
    simp

theorem containsChars_append_left (u pat s : List Char)
    (h : containsChars pat s = true) : containsChars pat (u ++ s) = true := by
  induction u with
  | nil => simpa using h
  | cons c cs ih => simp [containsChars, ih]

/-- C4 (amended): tag matching is namespace-insensitive where the code uses
local names or substring tests — every key `app.xml` processing records is
the namespace-stripped local tag of a child, and a `PageSheet` tag under
any namespace URI still matches the substring test — but the `PageName`
cell lookup matches the literal tag `Cell`, so namespaced property cells
are never found and the name falls back to the filename. -/
theorem C4_amended :
    (∀ (root : XElem) (a : XAttr), a ∈ appProps root →
      ∃ c, c ∈ root.children ∧ a.key = localName c.tag) ∧
    (∀ uri : String,
      strContains ("\x7b" ++ uri ++ "\x7d" ++ "PageSheet") "PageSheet" = true) ∧
    (mkPageInfo "out" "page1.xml" nsCellPage).name = pyRemoveAll "page1.xml" ".xml" := by
  refine ⟨?_, ?_, rfl⟩
  · intro root a ha
    rcases appProps_foldl_mem root.children [] a ha with h | h
    · exact absurd h (List.not_mem_nil a)
    · exact h
  · intro uri
    show containsChars "PageSheet".data ("\x7b" ++ uri ++ "\x7d" ++ "PageSheet").data = true
    have hd : ("\x7b" ++ uri ++ "\x7d" ++ "PageSheet").data =
        ("\x7b".data ++ uri.data ++ "\x7d".data) ++ "PageSheet".data := by
      simp [String.data_append]
    rw [hd]
    have := containsChars_self_append "PageSheet".data []
    rw [List.append_nil] at this
    exact containsChars_append_left _ _ _ this

/-- The app-properties root of the C4 witness: one namespaced child with
text. -/
def appRootNS : XElem := .mk "Properties" [] none [.mk "\x7bns\x7dTitle" [] (some "T") []]

/-- Witness for C4 (amended): on a concrete namespaced app-properties part
the recorded key `Title` is the local tag of the child. -/
theorem C4_witness :
    (⟨"Title", "T"⟩ : XAttr) ∈ appProps appRootNS ∧
    ∃ c, c ∈ appRootNS.children ∧ (⟨"Title", "T"⟩ : XAttr).key = localName c.tag :=
  ⟨by decide, C4_amended.1 appRootNS ⟨"Title", "T"⟩ (by decide)⟩

/-! ## The page round trip (`tree.write` then `ET.parse`, claim C8)

Line 170 rewrites each parsed page with `tree.write(output_path,
encoding='utf-8', xml_declaration=True)`.  We model ElementTree's
serializer for documents whose names, attribute values and text need no
escaping or namespace prefixes (no `<`, `&`, quotes in values, no empty
text), and a character-level parser modelling re-reading the written file
with `ET.parse`, and prove the round trip exact on such trees. -/

/-- `<` -/
def ltChar : Char := Char.ofNat 60

/-- `>` -/
def gtChar : Char := Char.ofNat 62

/-- `/` -/
def slashChar : Char := Char.ofNat 47

/-- space -/
def spaceChar : Char := Char.ofNat 32

/-- `=` -/
def eqChar : Char := Char.ofNat 61

/-- double quote -/
def quoteChar : Char := Char.ofNat 34

/-- `&` -/
def ampChar : Char := Char.ofNat 38

/-- apostrophe -/
def aposChar : Char := Char.ofNat 39

/-- A character that can appear in a serialized tag or attribute name. -/
def isNameChar (c : Char) : Bool :=
  !(c == spaceChar || c == gtChar || c == slashChar || c == eqChar ||
    c == quoteChar || c == ltChar || c == ampChar)

/-- A character allowed in unescaped text content. -/
def noLtAmp (c : Char) : Bool := !(c == ltChar || c == ampChar)

/-- A character allowed in an unescaped double-quoted attribute value. -/
def attrValChar (c : Char) : Bool := !(c == quoteChar || c == ampChar || c == ltChar)

/-- The text written for an element: its text when truthy, nothing for
`None` (and Python also treats an empty string as falsy). -/
def txtOf : Option String → List Char
  | some s => s.data
  | none => []

/-- ` key="value"` pairs, in attribute order. -/
def serializeAttrs : List XAttr → List Char
  | [] => []
  | a :: rest =>
    spaceChar :: (a.key.data ++ eqChar :: quoteChar :: (a.val.data ++ quoteChar :: serializeAttrs rest))

mutual
/-- ElementTree's `_serialize_xml` for one element: `<tag attrs />` when
text and children are falsy, else `<tag attrs>text children</tag>`. -/
def serializeElem : XElem → List Char
  | .mk tag attrs text children =>
    if (txtOf text).isEmpty && children.isEmpty then
      ltChar :: (tag.data ++ serializeAttrs attrs ++ [spaceChar, slashChar, gtChar])
    else
      ltChar :: (tag.data ++ serializeAttrs attrs ++ gtChar ::
        (txtOf text ++ serializeForest children ++ (ltChar :: slashChar :: (tag.data ++ [gtChar]))))

/-- The children of an element, serialized in order. -/
def serializeForest : List XElem → List Char
  | [] => []
  | c :: cs => serializeElem c ++ serializeForest cs
end

/-- The declaration `tree.write` emits for `encoding='utf-8'` with
`xml_declaration=True`, newline included. -/
def xmlDecl : List Char :=
  "<?xml version=".data ++ aposChar :: ("1.0".data ++ aposChar :: (" encoding=".data ++
    aposChar :: ("utf-8".data ++ aposChar :: "?>\n".data)))

/-- Longest prefix of name characters, with the remainder. -/
def takeName : List Char → List Char × List Char
  | [] => ([], [])
  | c :: cs =>
    if isNameChar c then
      let r := takeName cs
      (c :: r.1, r.2)
    else ([], c :: cs)

/-- Text content: everything up to the next `<`. -/
def takeText : List Char → List Char × List Char
  | [] => ([], [])
  | c :: cs =>
    if c == ltChar then ([], c :: cs)
    else
      let r := takeText cs
      (c :: r.1, r.2)

/-- The characters up to the closing double quote of an attribute value. -/
def takeUntilQuote : List Char → Option (List Char × List Char)
  | [] => none
  | c :: cs =>
    if c == quoteChar then some ([], cs)
    else (takeUntilQuote cs).map (fun p => (c :: p.1, p.2))

/-- Parse the attribute list of a start tag up to its `>` or ` />`; returns
the attributes, whether the element was self-closing, and the remainder. -/
def parseAttrList : Nat → List Char → Option (List XAttr × Bool × List Char)
  | 0, _ => none
  | _ + 1, [] => none
  | fuel + 1, c :: cs =>
    if c == gtChar then some ([], false, cs)
    else if c == spaceChar then
      match cs with
      | [] => none
      | c2 :: cs2 =>
        if c2 == slashChar then
          match cs2 with
          | [] => none
          | c3 :: cs3 => if c3 == gtChar then some ([], true, cs3) else none
        else
          let nr := takeName (c2 :: cs2)
          if nr.1.isEmpty then none
          else
            match nr.2 with
            | e :: q :: r2 =>
              if e == eqChar && q == quoteChar then
                match takeUntilQuote r2 with
                | some (v, r3) =>
                  match parseAttrList fuel r3 with
                  | some (attrs, sc, r4) => some (⟨⟨nr.1⟩, ⟨v⟩⟩ :: attrs, sc, r4)
                  | none => none
                | none => none
              else none
            | _ => none
    else none

mutual
/-- Parse one element: start tag, attributes, then either a self-close or
text, children and a matching end tag. -/
def parseElemAux : Nat → List Char → Option (XElem × List Char)
  | 0, _ => none
  | fuel + 1, cs =>
    match cs with
    | [] => none
    | c :: rest =>
      if c == ltChar then
        let nr := takeName rest
        if nr.1.isEmpty then none
        else
          match parseAttrList (nr.2.length + 1) nr.2 with
          | some (attrs, true, r2) => some (⟨⟨nr.1⟩, attrs, none, []⟩, r2)
          | some (attrs, false, r2) =>
            let tr := takeText r2
            match parseChildrenAux fuel tr.2 with
            | some (kids, r4) =>
              match r4 with
              | c1 :: c2 :: r5 =>
                if c1 == ltChar && c2 == slashChar then
                  let cr := takeName r5
                  if cr.1 == nr.1 then
                    match cr.2 with
                    | g :: r7 =>
                      if g == gtChar then
                        some (⟨⟨nr.1⟩, attrs, if tr.1.isEmpty then none else some ⟨tr.1⟩, kids⟩, r7)
                      else none
                    | [] => none
                  else none
                else none
              | _ => none
            | none => none
          | none => none
      else none

/-- Parse sibling elements until an end tag (or any non-element content)
is reached. -/
def parseChildrenAux : Nat → List Char → Option (List XElem × List Char)
  | 0, _ => none
  | fuel + 1, cs =>
    match cs with
    | c1 :: c2 :: _ =>
      if c1 == ltChar && c2 == slashChar then some ([], cs)
      else if c1 == ltChar then
        match parseElemAux fuel cs with
        | some (e, r) =>
          match parseChildrenAux fuel r with
          | some (es, r2) => some (e :: es, r2)
          | none => none
        | none => none
      else some ([], cs)
    | _ => some ([], cs)
end

/-- `ET.parse` on a written part: skip the declaration, parse the root
element, and require the document to end there. -/
def parseDoc (cs : List Char) : Option XElem :=
  let body := if isPrefixChars xmlDecl cs then cs.drop xmlDecl.length else cs
  match parseElemAux (body.length + 1) body with
  | some (e, rem) => if rem.isEmpty then some e else none
  | none => none

/-- Tag or attribute name fit for unescaped serialization: non-empty, all
name characters. -/
def nameOk (s : String) : Bool := !s.data.isEmpty && s.data.all isNameChar

/-- Attribute fit for unescaped serialization. -/
def attrOk (a : XAttr) : Bool := nameOk a.key && a.val.data.all attrValChar

/-- Text fit for unescaped serialization (also non-empty: ElementTree
drops falsy text when writing). -/
def cleanTextB (s : String) : Bool := !s.data.isEmpty && s.data.all noLtAmp

mutual
/-- A tree the unescaped serializer represents exactly. -/
def cleanElem : XElem → Bool
  | .mk tag attrs text children =>
    nameOk tag && attrs.all attrOk &&
    (match text with | none => true | some s => cleanTextB s) &&
    cleanForest children

/-- All elements of a forest clean. -/
def cleanForest : List XElem → Bool
  | [] => true
  | c :: cs => cleanElem c && cleanForest cs
end

mutual
/-- Fuel sufficient for `parseElemAux` on the serialization of `t`. -/
def fuelElem : XElem → Nat
  | .mk _ _ _ cs => fuelList cs + 1

/-- Fuel sufficient for `parseChildrenAux` on a serialized forest. -/
def fuelList : List XElem → Nat
  | [] => 1
  | c :: cs => fuelElem c + fuelList cs + 1
end

theorem nameChar_spec (c : Char) (h : isNameChar c = true) :
    c ≠ spaceChar ∧ c ≠ gtChar ∧ c ≠ slashChar ∧ c ≠ eqChar ∧
    c ≠ quoteChar ∧ c ≠ ltChar ∧ c ≠ ampChar := by
  simp [isNameChar] at h
  tauto

theorem noLtAmp_spec (c : Char) (h : noLtAmp c = true) : c ≠ ltChar ∧ c ≠ ampChar := by
  simp [noLtAmp] at h
  exact h

theorem attrValChar_spec (c : Char) (h : attrValChar c = true) :
    c ≠ quoteChar ∧ c ≠ ampChar ∧ c ≠ ltChar := by
  simp [attrValChar] at h
  tauto

theorem takeName_stop (n : List Char) (hn : n.all isNameChar = true) (d : Char)
    (hd : isNameChar d = false) (r : List Char) :
    takeName (n ++ d :: r) = (n, d :: r) := by
  induction n with
  | nil =>
    simp only [List.nil_append, takeName, hd]
    rfl
  | cons c cs ih =>
    rw [List.all_cons, Bool.and_eq_true] at hn
    simp [takeName, hn.1, ih hn.2]

theorem takeText_stop (t : List Char) (ht : t.all noLtAmp = true) (r : List Char) :
    takeText (t ++ ltChar :: r) = (t, ltChar :: r) := by
  induction t with
  | nil => simp [takeText]
  | cons c cs ih =>
    rw [List.all_cons, Bool.and_eq_true] at ht
    have hc : c ≠ ltChar := (noLtAmp_spec c ht.1).1
    simp [takeText, hc, ih ht.2]

theorem takeUntilQuote_stop (v : List Char) (hv : v.all attrValChar = true) (r : List Char) :
    takeUntilQuote (v ++ quoteChar :: r) = some (v, r) := by
  induction v with
  | nil => simp [takeUntilQuote]
  | cons c cs ih =>
    rw [List.all_cons, Bool.and_eq_true] at hv
    have hc : c ≠ quoteChar := (attrValChar_spec c hv.1).1
    simp [takeUntilQuote, hc, ih hv.2]

/-- The two possible endings of a start tag after its attributes. -/
def attrEnder : Bool → List Char → List Char
  | false, r => gtChar :: r
  | true, r => spaceChar :: slashChar :: gtChar :: r

theorem serializeAttrs_length (attrs : List XAttr) :
    attrs.length ≤ (serializeAttrs attrs).length := by
  induction attrs with
  | nil => simp [serializeAttrs]
  | cons a rest ih =>
    simp [serializeAttrs]
    omega

theorem parseAttrList_inv (attrs : List XAttr) (sc : Bool) (r : List Char) :
    ∀ fuel : Nat, attrs.all attrOk = true → attrs.length + 1 ≤ fuel →
    parseAttrList fuel (serializeAttrs attrs ++ attrEnder sc r) = some (attrs, sc, r) := by
  induction attrs with
  | nil =>
    intro fuel _ hf
    obtain ⟨f, rfl⟩ : ∃ f, fuel = f + 1 := ⟨fuel - 1, by omega⟩
    cases sc
    · simp [serializeAttrs, attrEnder, parseAttrList]
    · have h1 : (spaceChar == gtChar) = false := by decide
      have h2 : (slashChar == slashChar) = true := by decide
      have h3 : (gtChar == gtChar) = true := by decide
      have h4 : (spaceChar == spaceChar) = true := by decide
      simp [serializeAttrs, attrEnder, parseAttrList, h1, h2, h3, h4]
  | cons a rest ih =>
    intro fuel hok hf
    obtain ⟨f, rfl⟩ : ∃ f, fuel = f + 1 := ⟨fuel - 1, by omega⟩
    rw [List.all_cons, Bool.and_eq_true] at hok
    obtain ⟨hA, hrest⟩ := hok
    unfold attrOk at hA
    rw [Bool.and_eq_true] at hA
    obtain ⟨hkey, hval⟩ := hA
    unfold nameOk at hkey
    rw [Bool.and_eq_true] at hkey
    obtain ⟨hkne, hkall⟩ := hkey
    obtain ⟨k0, ktl, hk⟩ : ∃ k0 ktl, a.key.data = k0 :: ktl := by
      cases h : a.key.data with
      | nil =>
        rw [h] at hkne
        exact absurd hkne (by decide)
      | cons x y => exact ⟨x, y, rfl⟩
    have hk0 : isNameChar k0 = true := by
      rw [hk, List.all_cons, Bool.and_eq_true] at hkall
      exact hkall.1
    have hk0slash : k0 ≠ slashChar := (nameChar_spec k0 hk0).2.2.1
    have hspg : (spaceChar == gtChar) = false := by decide
    have htn := takeName_stop a.key.data hkall eqChar (by decide)
      (quoteChar :: (a.val.data ++ (quoteChar :: (serializeAttrs rest ++ attrEnder sc r))))
    have htq := takeUntilQuote_stop a.val.data hval (serializeAttrs rest ++ attrEnder sc r)
    have hih := ih f hrest (by simp at hf; omega)
    simp only [serializeAttrs, List.cons_append, List.append_assoc, parseAttrList, hspg,
      Bool.false_eq_true, if_false, beq_self_eq_true, if_true]
    rw [hk] at htn
    simp only [List.cons_append, List.append_assoc] at htn
    rw [hk]
    simp only [List.append_eq, List.cons_append, List.append_assoc]
    rw [if_neg (show ((k0 == slashChar) = true) → False from by simp [hk0slash])]
    rw [htn]
    simp only [List.isEmpty_cons, Bool.false_eq_true, if_false, beq_self_eq_true,
      Bool.and_self, if_true, htq, hih]
    rw [← hk]

theorem serializeElem_head2 (e : XElem) (h : cleanElem e = true) :
    ∃ k0 x, serializeElem e = ltChar :: k0 :: x ∧ isNameChar k0 = true := by
  cases e with
  | mk tag attrs text children =>
    simp only [cleanElem, Bool.and_eq_true] at h
    obtain ⟨⟨⟨hname, _⟩, _⟩, _⟩ := h
    unfold nameOk at hname
    rw [Bool.and_eq_true] at hname
    obtain ⟨hne, hall⟩ := hname
    obtain ⟨k0, ktl, htag⟩ : ∃ k0 ktl, tag.data = k0 :: ktl := by
      cases hh : tag.data with
      | nil => rw [hh] at hne; exact absurd hne (by decide)
      | cons x y => exact ⟨x, y, rfl⟩
    have hk0 : isNameChar k0 = true := by
      rw [htag, List.all_cons, Bool.and_eq_true] at hall
      exact hall.1
    unfold serializeElem
    by_cases hb : ((txtOf text).isEmpty && children.isEmpty) = true
    · refine ⟨k0, ktl ++ serializeAttrs attrs ++ [spaceChar, slashChar, gtChar], ?_, hk0⟩
      rw [if_pos hb, htag]
      simp
    · refine ⟨k0, ktl ++ serializeAttrs attrs ++ gtChar ::
        (txtOf text ++ serializeForest children ++
          (ltChar :: slashChar :: (tag.data ++ [gtChar]))), ?_, hk0⟩
      rw [if_neg hb, htag]
      simp

theorem serializeForest_lt_head (cs : List XElem) (y : List Char) :
    ∃ x, serializeForest cs ++ ltChar :: y = ltChar :: x := by
  cases cs with
  | nil => exact ⟨y, rfl⟩
  | cons c cs' =>
    cases c with
    | mk tag attrs text children =>
      by_cases hb : ((txtOf text).isEmpty && children.isEmpty) = true
      · rw [serializeForest]
        simp only [serializeElem, if_pos hb, List.cons_append, List.append_assoc]
        exact ⟨_, rfl⟩
      · rw [serializeForest]
        simp only [serializeElem, if_neg hb, List.cons_append, List.append_assoc]
        exact ⟨_, rfl⟩

theorem serAttrs_ender_head (attrs : List XAttr) (sc : Bool) (r : List Char) :
    ∃ d xx, serializeAttrs attrs ++ attrEnder sc r = d :: xx ∧ isNameChar d = false := by
  cases attrs with
  | nil =>
    cases sc
    · exact ⟨gtChar, r, rfl, by decide⟩
    · exact ⟨spaceChar, slashChar :: gtChar :: r, rfl, by decide⟩
  | cons a rest =>
    exact ⟨spaceChar, _, rfl, by decide⟩

mutual
theorem parse_serializeElem (t : XElem) : ∀ (extra : Nat) (rest : List Char),
    cleanElem t = true →
    parseElemAux (fuelElem t + extra) (serializeElem t ++ rest) = some (t, rest) := by
  cases t with
  | mk tag attrs text children =>
    intro extra rest hclean
    simp only [cleanElem, Bool.and_eq_true] at hclean
    obtain ⟨⟨⟨hname, hattrs⟩, htext⟩, hkids⟩ := hclean
    have hname2 := hname
    unfold nameOk at hname2
    rw [Bool.and_eq_true] at hname2
    obtain ⟨hne, hall⟩ := hname2
    obtain ⟨k0, ktl, htag⟩ : ∃ k0 ktl, tag.data = k0 :: ktl := by
      cases hh : tag.data with
      | nil => rw [hh] at hne; exact absurd hne (by decide)
      | cons x y => exact ⟨x, y, rfl⟩
    have hfu : fuelElem (XElem.mk tag attrs text children) + extra =
        (fuelList children + extra) + 1 := by
      simp only [fuelElem]
      omega
    rw [hfu]
    by_cases hb : ((txtOf text).isEmpty && children.isEmpty) = true
    · -- self-closing form
      have hb1 : (txtOf text).isEmpty = true := by
        have := hb
        rw [Bool.and_eq_true] at this
        exact this.1
      have hb2 : children.isEmpty = true := by
        have := hb
        rw [Bool.and_eq_true] at this
        exact this.2
      have hkid0 : children = [] := by
        simpa [List.isEmpty_iff] using hb2
      have htx : text = none := by
        cases hx : text with
        | none => rfl
        | some s =>
          exfalso
          rw [hx] at htext
          have htext2 : cleanTextB s = true := htext
          unfold cleanTextB at htext2
          rw [Bool.and_eq_true] at htext2
          have h1 := htext2.1
          rw [hx] at hb1
          have h2 : s.data.isEmpty = true := hb1
          rw [List.isEmpty_eq_true] at h2
          rw [h2] at h1
          exact absurd h1 (by decide)
      subst htx
      subst hkid0
      simp only [serializeElem, if_pos hb, List.cons_append, List.append_assoc]
      obtain ⟨d, xx, hshape, hd⟩ := serAttrs_ender_head attrs true rest
      simp only [attrEnder] at hshape
      simp only [List.nil_append]
      simp only [parseElemAux]
      simp only [beq_self_eq_true, if_true]
      rw [hshape]
      rw [takeName_stop tag.data hall d hd xx]
      have hne2 : tag.data.isEmpty = false := by rw [htag]; rfl
      simp only [hne2, Bool.false_eq_true, if_false]
      rw [← hshape]
      have hpal := parseAttrList_inv attrs true rest
        ((serializeAttrs attrs ++ attrEnder true rest).length + 1) hattrs
        (by
          simp only [List.length_append]
          have := serializeAttrs_length attrs
          omega)
      simp only [attrEnder] at hpal
      rw [hpal]
    · -- content form
      simp only [serializeElem, if_neg hb, List.cons_append, List.append_assoc,
        List.nil_append]
      simp only [parseElemAux]
      simp only [beq_self_eq_true, if_true]
      obtain ⟨d, xx, hshape, hd⟩ := serAttrs_ender_head attrs false
        (txtOf text ++ (serializeForest children ++
          (ltChar :: slashChar :: (tag.data ++ gtChar :: rest))))
      simp only [attrEnder] at hshape
      have e1 : takeName (tag.data ++ (serializeAttrs attrs ++ gtChar ::
          (txtOf text ++ (serializeForest children ++
            (ltChar :: slashChar :: (tag.data ++ gtChar :: rest)))))) =
          (tag.data, serializeAttrs attrs ++ gtChar ::
            (txtOf text ++ (serializeForest children ++
              (ltChar :: slashChar :: (tag.data ++ gtChar :: rest))))) := by
        rw [hshape]
        exact takeName_stop tag.data hall d hd xx
      have hne2 : tag.data.isEmpty = false := by rw [htag]; rfl
      have hpal := parseAttrList_inv attrs false
        (txtOf text ++ (serializeForest children ++
          (ltChar :: slashChar :: (tag.data ++ gtChar :: rest))))
        ((serializeAttrs attrs ++ attrEnder false
          (txtOf text ++ (serializeForest children ++
            (ltChar :: slashChar :: (tag.data ++ gtChar :: rest))))).length + 1) hattrs
        (by
          simp only [List.length_append]
          have := serializeAttrs_length attrs
          omega)
      simp only [attrEnder] at hpal
      obtain ⟨yy, hyy⟩ := serializeForest_lt_head children
        (slashChar :: (tag.data ++ gtChar :: rest))
      have htxt_all : (txtOf text).all noLtAmp = true := by
        cases hx : text with
        | none => rfl
        | some s =>
          rw [hx] at htext
          have h2 : cleanTextB s = true := htext
          unfold cleanTextB at h2
          rw [Bool.and_eq_true] at h2
          exact h2.2
      have e2 : takeText (txtOf text ++ (serializeForest children ++
          (ltChar :: slashChar :: (tag.data ++ gtChar :: rest)))) =
          (txtOf text, serializeForest children ++
            (ltChar :: slashChar :: (tag.data ++ gtChar :: rest))) := by
        rw [hyy]
        exact takeText_stop (txtOf text) htxt_all yy
      have hpcf := parse_serializeForest children extra (tag.data ++ gtChar :: rest) hkids
      have e3 : takeName (tag.data ++ gtChar :: rest) = (tag.data, gtChar :: rest) :=
        takeName_stop tag.data hall gtChar (by decide) rest
      simp only [e1, hne2, Bool.false_eq_true, if_false, hpal, e2, hpcf, e3,
        beq_self_eq_true, Bool.and_self, if_true]
      cases hx : text with
      | none => simp [txtOf]
      | some s =>
        rw [hx] at htext
        have h2 : cleanTextB s = true := htext
        unfold cleanTextB at h2
        rw [Bool.and_eq_true] at h2
        have hsne : s.data.isEmpty = false := by
          cases hh : s.data.isEmpty with
          | false => rfl
          | true =>
            rw [List.isEmpty_eq_true] at hh
            rw [hh] at h2
            exact absurd h2.1 (by decide)
        simp [txtOf, hsne]

theorem parse_serializeForest (cs : List XElem) : ∀ (extra : Nat) (rest : List Char),
    cleanForest cs = true →
    parseChildrenAux (fuelList cs + extra) (serializeForest cs ++ (ltChar :: slashChar :: rest)) =
      some (cs, ltChar :: slashChar :: rest) := by
  cases cs with
  | nil =>
    intro extra rest hclean
    have hfu : fuelList ([] : List XElem) + extra = extra + 1 := by
      simp [fuelList]
      omega
    rw [hfu]
    simp [serializeForest, parseChildrenAux]
  | cons c cs' =>
    intro extra rest hclean
    simp only [cleanForest, Bool.and_eq_true] at hclean
    obtain ⟨hc, hcs⟩ := hclean
    obtain ⟨k0, x, hx, hk0⟩ := serializeElem_head2 c hc
    have hfu : fuelList (c :: cs') + extra = (fuelElem c + fuelList cs' + extra) + 1 := by
      simp only [fuelList]
      omega
    rw [hfu, serializeForest, List.append_assoc, hx]
    simp only [List.cons_append]
    simp only [parseChildrenAux]
    have hk0s : (k0 == slashChar) = false := by
      have := (nameChar_spec k0 hk0).2.2.1
      simp [this]
    simp only [beq_self_eq_true, hk0s, Bool.and_false, Bool.false_eq_true, if_false,
      Bool.and_true, Bool.true_and, if_true]
    have he := parse_serializeElem c (fuelList cs' + extra)
      (serializeForest cs' ++ (ltChar :: slashChar :: rest)) hc
    rw [hx] at he
    simp only [List.cons_append, List.append_assoc] at he
    have hfu2 : fuelElem c + fuelList cs' + extra = fuelElem c + (fuelList cs' + extra) := by omega
    rw [hfu2]
    simp only [he]
    have hf := parse_serializeForest cs' (fuelElem c + extra) rest hcs
    have hfu3 : fuelElem c + (fuelList cs' + extra) = fuelList cs' + (fuelElem c + extra) := by omega
    rw [hfu3]
    simp only [hf]
end

mutual
theorem fuelElem_le (t : XElem) : fuelElem t + 1 ≤ (serializeElem t).length := by
  cases t with
  | mk tag attrs text children =>
    by_cases hb : ((txtOf text).isEmpty && children.isEmpty) = true
    · have hkid0 : children = [] := by
        rw [Bool.and_eq_true] at hb
        simpa [List.isEmpty_iff] using hb.2
      subst hkid0
      simp only [serializeElem, if_pos hb, fuelElem, fuelList]
      simp [List.length_append]
      omega
    · have h2 := fuelList_le children
      simp only [serializeElem, if_neg hb, fuelElem]
      simp [List.length_append]
      omega

theorem fuelList_le (cs : List XElem) : fuelList cs ≤ (serializeForest cs).length + 1 := by
  cases cs with
  | nil => simp [fuelList, serializeForest]
  | cons c cs' =>
    have h1 := fuelElem_le c
    have h2 := fuelList_le cs'
    simp only [fuelList, serializeForest]
    simp [List.length_append]
    omega
end

theorem parseDoc_serialize (root : XElem) (h : cleanElem root = true) :
    parseDoc (xmlDecl ++ serializeElem root) = some root := by
  simp only [parseDoc]
  rw [if_pos (isPrefixChars_self_append xmlDecl (serializeElem root))]
  rw [List.drop_left]
  have hb := fuelElem_le root
  have hfu : (serializeElem root).length + 1 =
      fuelElem root + ((serializeElem root).length + 1 - fuelElem root) := by omega
  rw [hfu]
  have hp := parse_serializeElem root ((serializeElem root).length + 1 - fuelElem root) [] h
  rw [List.append_nil] at hp
  rw [hp]
  simp

/-- The file `_process_single_page` writes for a parsed page (line 170):
XML declaration followed by the serialized tree. -/
def pageFileContents (root : XElem) : List Char := xmlDecl ++ serializeElem root

/-- C8 (confirmed): for every page part that parses successfully (to a tree
whose names, values and text need no escaping), re-parsing the XML file the
extractor writes for it yields a tree with the same root tag and the same
descendant-element count as recorded in the page's `PageInfo` — the
parse-write-reparse round trip preserves both. -/
theorem C8_round_trip (root : XElem) (outputDir fn : String) (h : cleanElem root = true) :
    ∃ reparsed : XElem, parseDoc (pageFileContents root) = some reparsed ∧
      reparsed.tag = (mkPageInfo outputDir fn root).root_tag ∧
      (descElems reparsed).length = (mkPageInfo outputDir fn root).elements_count :=
  ⟨root, by rw [pageFileContents, parseDoc_serialize root h], rfl, rfl⟩

/-- A concrete clean page for the C8 witness. -/
def w8page : XElem :=
  .mk "PageContents" [⟨"N", "PageName"⟩] (some "hello")
    [.mk "Shape" [] none [], .mk "Shape" [⟨"ID", "1"⟩] none [.mk "Cell" [] none []]]

/-- Witness for C8: the concrete page round-trips with root tag and
descendant count preserved. -/
theorem C8_witness :
    cleanElem w8page = true ∧
    ∃ reparsed : XElem, parseDoc (pageFileContents w8page) = some reparsed ∧
      reparsed.tag = (mkPageInfo "out" "page8.xml" w8page).root_tag ∧
      (descElems reparsed).length = (mkPageInfo "out" "page8.xml" w8page).elements_count :=
  ⟨by decide, C8_round_trip w8page "out" "page8.xml" (by decide)⟩
